import Mathlib

/- A shallow embedding of `sleap/io/convert.py`: the format-dispatch and
export-orchestration core of the `sleap-convert` command line utility.
Strings are modelled as Lean `String` values (lists of characters),
`pathlib.PurePath` values as a record of an absolute flag plus a component
list, and the external loaders/writers as function parameters. -/

namespace SleapConvert

/-! Decimal formatting (Python `{:03}` format specifier) -/

/-- The decimal digit character for `d` (callers only pass `d ≤ 9`). -/
def digitChar : Nat → Char
  | 0 => '0'
  | 1 => '1'
  | 2 => '2'
  | 3 => '3'
  | 4 => '4'
  | 5 => '5'
  | 6 => '6'
  | 7 => '7'
  | 8 => '8'
  | _ => '9'

/-- Fuel-driven decimal rendering of a natural number, most significant digit
first.  The fuel bounds the number of divisions by 10. -/
def decListAux : Nat → Nat → List Char
  | 0, _ => []
  | fuel + 1, n =>
    if n < 10 then [digitChar n]
    else decListAux fuel (n / 10) ++ [digitChar (n % 10)]

/-- Decimal rendering of a natural number. -/
def decList (n : Nat) : List Char := decListAux (n + 1) n

/-- Models Python's format specifier `{:03}`: the decimal digits of `n`,
left-padded with zeros to width at least 3. -/
def pad3 (n : Nat) : String :=
  ⟨List.replicate (3 - (decList n).length) '0' ++ decList n⟩

/-- Reads a digit list back as a number; used to show `pad3` is injective. -/
def decVal (l : List Char) : Nat := l.foldl (fun a c => 10 * a + (c.toNat - 48)) 0

theorem digitChar_range (n : Nat) :
    48 ≤ (digitChar n).toNat ∧ (digitChar n).toNat ≤ 57 := by
  rcases n with _ | _ | _ | _ | _ | _ | _ | _ | _ | n
  · decide
  · decide
  · decide
  · decide
  · decide
  · decide
  · decide
  · decide
  · decide
  · show 48 ≤ ('9').toNat ∧ ('9').toNat ≤ 57
    decide

theorem digitChar_toNat (n : Nat) (h : n < 10) : (digitChar n).toNat = 48 + n := by
  interval_cases n <;> decide

theorem decListAux_digits (fuel : Nat) :
    ∀ n, n < fuel → ∀ c ∈ decListAux fuel n, 48 ≤ c.toNat ∧ c.toNat ≤ 57 := by
  induction fuel with
  | zero => intro n h; omega
  | succ fuel ih =>
    intro n _ c hc
    simp only [decListAux] at hc
    split at hc
    · simp only [List.mem_singleton] at hc
      exact hc ▸ digitChar_range n
    · rcases List.mem_append.1 hc with h' | h'
      · have hn : 10 ≤ n := by omega
        exact ih (n / 10) (by omega) c h'
      · simp only [List.mem_singleton] at h'
        exact h' ▸ digitChar_range (n % 10)

theorem decList_digits (n : Nat) : ∀ c ∈ decList n, 48 ≤ c.toNat ∧ c.toNat ≤ 57 :=
  decListAux_digits (n + 1) n (Nat.lt_succ_self n)

theorem decVal_append_digit (l : List Char) (c : Char) :
    decVal (l ++ [c]) = 10 * decVal l + (c.toNat - 48) := by
  simp [decVal, List.foldl_append]

theorem decVal_decListAux (fuel : Nat) :
    ∀ n, n < fuel → decVal (decListAux fuel n) = n := by
  induction fuel with
  | zero => intro n h; omega
  | succ fuel ih =>
    intro n _
    simp only [decListAux]
    split
    · next h =>
      simp [decVal, digitChar_toNat n h]
    · next h =>
      have hn : 10 ≤ n := by omega
      rw [decVal_append_digit, ih (n / 10) (by omega),
        digitChar_toNat (n % 10) (Nat.mod_lt n (by omega))]
      omega

theorem decVal_decList (n : Nat) : decVal (decList n) = n :=
  decVal_decListAux (n + 1) n (Nat.lt_succ_self n)

theorem decVal_replicate_zero (k : Nat) (l : List Char) :
    decVal (List.replicate k '0' ++ l) = decVal l := by
  induction k with
  | zero => simp
  | succ k ih =>
    have : List.replicate (k + 1) '0' ++ l = '0' :: (List.replicate k '0' ++ l) := by
      simp [List.replicate_succ]
    rw [this]
    simpa [decVal] using ih

theorem decVal_pad3 (n : Nat) : decVal (pad3 n).data = n := by
  simp only [pad3]
  rw [decVal_replicate_zero, decVal_decList]

theorem pad3_inj {a b : Nat} (h : pad3 a = pad3 b) : a = b := by
  have : (pad3 a).data = (pad3 b).data := by rw [h]
  calc a = decVal (pad3 a).data := (decVal_pad3 a).symm
    _ = decVal (pad3 b).data := by rw [this]
    _ = b := decVal_pad3 b

theorem pad3_digits (n : Nat) : ∀ c ∈ (pad3 n).data, 48 ≤ c.toNat ∧ c.toNat ≤ 57 := by
  intro c hc
  simp only [pad3] at hc
  rcases List.mem_append.1 hc with h' | h'
  · have := List.eq_of_mem_replicate h'
    subst this; exact ⟨by decide, by decide⟩
  · exact decList_digits n c h'

theorem underscore_not_mem_pad3 (n : Nat) : '_' ∉ (pad3 n).data := by
  intro h
  have := pad3_digits n '_' h
  revert this; decide

theorem slash_not_mem_pad3 (n : Nat) : '/' ∉ (pad3 n).data := by
  intro h
  have := pad3_digits n '/' h
  revert this; decide

/-! Strings: Python `in`, `endswith`, suffix slicing -/

/-- Models Python's substring test `t in s`. -/
def strContains (s t : String) : Bool := decide (t.data <:+: s.data)

/-- A plain suffix test (Python's `str.endswith`). -/
def strEndsWith (s t : String) : Bool := decide (t.data <:+ s.data)

theorem data_append (a b : String) : (a ++ b).data = a.data ++ b.data := rfl

theorem data_inj {a b : String} (h : a.data = b.data) : a = b := by
  exact String.ext h

theorem mk_data (l : List Char) : (⟨l⟩ : String).data = l := rfl

/-! `pathlib.PurePath` (POSIX flavour) -/

/-- Splits a character list at every `'/'` (Python-style `split`, keeping
empty chunks). -/
def splitSlash : List Char → List (List Char)
  | [] => [[]]
  | c :: rest =>
    if c = '/' then [] :: splitSlash rest
    else
      match splitSlash rest with
      | [] => [[c]]
      | h :: t => (c :: h) :: t

/-- Joins path components with `'/'`. -/
def joinSlash : List (List Char) → List Char
  | [] => []
  | [c] => c
  | c :: rest => c ++ '/' :: joinSlash rest

/-- A parsed `PurePosixPath`: a root flag plus the list of path components
(`pathlib` drops empty and `"."` components while parsing).  The special
two-slash POSIX root and the special-cased `".."` name/stem are not
modelled; no claim depends on them. -/
structure PPath where
  absolute : Bool
  comps : List (List Char)
deriving DecidableEq

/-- The components of a raw path string: split at `'/'`, drop empty and `"."`
chunks. -/
def pathComponents (l : List Char) : List (List Char) :=
  (splitSlash l).filter (fun c => decide (c ≠ [] ∧ c ≠ ['.']))

/-- Models the single-argument `PurePath(s)` constructor. -/
def parsePath (s : String) : PPath :=
  ⟨decide (s.data.head? = some '/'), pathComponents s.data⟩

/-- Models `str(p)` for a `PurePath`: `"."` for the empty relative path,
`"/"` for the bare root, else the root flag followed by the components
joined with `'/'`. -/
def pathStr (p : PPath) : String :=
  if p.comps = [] then (if p.absolute then "/" else ".")
  else ⟨(if p.absolute then ['/'] else []) ++ joinSlash p.comps⟩

/-- Models `PurePath.name`: the final component (empty for `"."` and `"/"`). -/
def pathName (p : PPath) : List Char := p.comps.getLast?.getD []

/-- The index of the last `'.'` in a character list (Python's `str.rfind`). -/
def rfindDot : List Char → Option Nat
  | [] => none
  | c :: rest =>
    match rfindDot rest with
    | some i => some (i + 1)
    | none => if c = '.' then some 0 else none

/-- Models CPython's `PurePath.stem` property on a `name` string: the name up
to its last `'.'`, kept whole when the last dot is at index `0` or is the last
character. -/
def pyStem (name : List Char) : List Char :=
  match rfindDot name with
  | some i => if 0 < i ∧ i + 1 < name.length then name.take i else name
  | none => name

/-- Models `str(p.stem)`. -/
def pathStem (p : PPath) : String := ⟨pyStem (pathName p)⟩

/-- Models `p.parent`: drop the last component. -/
def pathParent (p : PPath) : PPath := ⟨p.absolute, p.comps.dropLast⟩

/-- Models the two-argument `PurePath(a, b)` constructor: an absolute second
segment replaces the first, otherwise the components accumulate. -/
def purePath2 (a b : String) : PPath :=
  if b.data.head? = some '/' then parsePath b
  else ⟨(parsePath a).absolute, (parsePath a).comps ++ pathComponents b.data⟩

/-- Well-formed component lists as produced by parsing: no component is
empty, `"."`, or contains a slash. -/
def PathWF (p : PPath) : Prop :=
  ∀ c ∈ p.comps, c ≠ [] ∧ c ≠ ['.'] ∧ '/' ∉ c

theorem splitSlash_ne_nil (l : List Char) : splitSlash l ≠ [] := by
  cases l with
  | nil => simp [splitSlash]
  | cons c rest =>
    simp only [splitSlash]
    split
    · simp
    · split <;> simp

theorem splitSlash_no_slash {l : List Char} (h : '/' ∉ l) : splitSlash l = [l] := by
  induction l with
  | nil => rfl
  | cons c rest ih =>
    have hc : c ≠ '/' := fun hc => h (hc ▸ List.mem_cons_self c rest)
    have hrest : '/' ∉ rest := fun hr => h (List.mem_cons_of_mem c hr)
    simp only [splitSlash, if_neg hc, ih hrest]

theorem splitSlash_slash_append {a : List Char} (t : List Char) (h : '/' ∉ a) :
    splitSlash (a ++ '/' :: t) = a :: splitSlash t := by
  induction a with
  | nil => simp [splitSlash]
  | cons c a' ih =>
    have hc : c ≠ '/' := fun hc => h (hc ▸ List.mem_cons_self c a')
    have ha' : '/' ∉ a' := fun hr => h (List.mem_cons_of_mem c hr)
    have hstep : (c :: a') ++ '/' :: t = c :: (a' ++ '/' :: t) := rfl
    rw [hstep]
    simp only [splitSlash, if_neg hc]
    rw [ih ha']

theorem mem_splitSlash_no_slash {l : List Char} :
    ∀ c ∈ splitSlash l, '/' ∉ c := by
  induction l with
  | nil => intro c hc; simp [splitSlash] at hc; simp [hc]
  | cons ch rest ih =>
    intro c hc
    simp only [splitSlash] at hc
    split at hc
    · rcases List.mem_cons.1 hc with h' | h'
      · simp [h']
      · exact ih c h'
    · next hch =>
      rcases hsp : splitSlash rest with _ | ⟨h, t⟩
      · exact absurd hsp (splitSlash_ne_nil rest)
      · rw [hsp] at hc
        rcases List.mem_cons.1 hc with h' | h'
        · subst h'
          intro hmem
          rcases List.mem_cons.1 hmem with h'' | h''
          · exact hch h''.symm
          · exact ih h (hsp ▸ List.mem_cons_self h t) h''
        · exact ih c (hsp ▸ List.mem_cons_of_mem h h')

theorem joinSlash_cons_cons (c : List Char) (d : List Char) (rest : List (List Char)) :
    joinSlash (c :: d :: rest) = c ++ '/' :: joinSlash (d :: rest) := rfl

theorem splitSlash_joinSlash {cs : List (List Char)} (hne : cs ≠ [])
    (h : ∀ c ∈ cs, '/' ∉ c) : splitSlash (joinSlash cs) = cs := by
  induction cs with
  | nil => exact absurd rfl hne
  | cons c rest ih =>
    cases rest with
    | nil => exact splitSlash_no_slash (h c (List.mem_cons_self c []))
    | cons d rest' =>
      rw [joinSlash_cons_cons]
      have hc : '/' ∉ c := h c (List.mem_cons_self _ _)
      have hrec : ∀ x ∈ d :: rest', '/' ∉ x := fun x hx => h x (List.mem_cons_of_mem c hx)
      have := ih (by simp) hrec
      rw [splitSlash_slash_append (joinSlash (d :: rest')) hc, this]

theorem wf_parsePath (s : String) : PathWF (parsePath s) := by
  intro c hc
  simp only [parsePath, pathComponents] at hc
  have h₁ := List.mem_filter.1 hc
  have h₂ : c ≠ [] ∧ c ≠ ['.'] := by
    have := h₁.2
    simpa using this
  exact ⟨h₂.1, h₂.2, mem_splitSlash_no_slash c h₁.1⟩

theorem wf_pathParent {p : PPath} (h : PathWF p) : PathWF (pathParent p) := by
  intro c hc
  exact h c (List.dropLast_subset p.comps hc)

theorem joinSlash_ne_nil {cs : List (List Char)} (hne : cs ≠ [])
    (h : ∀ c ∈ cs, c ≠ []) : joinSlash cs ≠ [] := by
  cases cs with
  | nil => exact absurd rfl hne
  | cons c rest =>
    cases rest with
    | nil => exact h c (List.mem_cons_self _ _)
    | cons d rest' =>
      rw [joinSlash_cons_cons]
      have : c ≠ [] := h c (List.mem_cons_self _ _)
      cases c with
      | nil => exact absurd rfl this
      | cons ch c' => simp

theorem joinSlash_head {c : List Char} {rest : List (List Char)} (hc : c ≠ []) :
    (joinSlash (c :: rest)).head? = c.head? := by
  cases rest with
  | nil => rfl
  | cons d rest' =>
    rw [joinSlash_cons_cons]
    cases c with
    | nil => exact absurd rfl hc
    | cons ch c' => rfl

theorem pathStr_cons_false (c : List Char) (rest : List (List Char)) :
    pathStr ⟨false, c :: rest⟩ = ⟨joinSlash (c :: rest)⟩ := by
  simp [pathStr]

theorem pathStr_cons_true (c : List Char) (rest : List (List Char)) :
    pathStr ⟨true, c :: rest⟩ = ⟨'/' :: joinSlash (c :: rest)⟩ := by
  simp [pathStr]

/-- Parsing a printed well-formed path recovers it. -/
theorem parsePath_pathStr {p : PPath} (h : PathWF p) : parsePath (pathStr p) = p := by
  rcases p with ⟨abs, comps⟩
  cases comps with
  | nil =>
    cases abs with
    | false => rfl
    | true => rfl
  | cons c rest =>
    have hwf : ∀ x ∈ c :: rest, x ≠ [] ∧ x ≠ ['.'] ∧ '/' ∉ x := h
    have hnoslash : ∀ x ∈ c :: rest, '/' ∉ x := fun x hx => (hwf x hx).2.2
    have hc_ne : c ≠ [] := (hwf c (List.mem_cons_self _ _)).1
    have hjoin : splitSlash (joinSlash (c :: rest)) = c :: rest :=
      splitSlash_joinSlash (by simp) hnoslash
    have hfilter : (c :: rest).filter (fun x => decide (x ≠ [] ∧ x ≠ ['.'])) = c :: rest := by
      apply List.filter_eq_self.2
      intro x hx
      exact decide_eq_true ⟨(hwf x hx).1, (hwf x hx).2.1⟩
    cases abs with
    | false =>
      rw [pathStr_cons_false]
      simp only [parsePath, pathComponents, mk_data, PPath.mk.injEq]
      refine ⟨?_, ?_⟩
      · rw [joinSlash_head hc_ne]
        cases c with
        | nil => exact absurd rfl hc_ne
        | cons ch c' =>
          have hch : ch ≠ '/' := fun hch =>
            (hwf (ch :: c') (List.mem_cons_self _ _)).2.2 (hch ▸ List.mem_cons_self _ _)
          simp [hch]
      · rw [hjoin, hfilter]
    | true =>
      rw [pathStr_cons_true]
      simp only [parsePath, pathComponents, mk_data, PPath.mk.injEq]
      refine ⟨?_, ?_⟩
      · simp
      · rw [show splitSlash ('/' :: joinSlash (c :: rest)) = [] :: splitSlash (joinSlash (c :: rest))
            by simp [splitSlash]]
        rw [hjoin, List.filter_cons]
        rw [show (decide (([] : List Char) ≠ [] ∧ ([] : List Char) ≠ ['.'])) = false by decide]
        simpa using hfilter

/-- The spec's path-building notation: a directory joined to a file name,
with the conventions shown by the spec's scenarios (the `"."` directory adds
no prefix, the root directory adds no duplicate slash). -/
def joinDir (dir rest : String) : String :=
  if dir = "." then rest else if dir = "/" then "/" ++ rest else dir ++ "/" ++ rest

theorem eta_mk (s : String) : (⟨s.data⟩ : String) = s := rfl

theorem joinSlash_append_single (cs : List (List Char)) (x : List Char) (h : cs ≠ []) :
    joinSlash (cs ++ [x]) = joinSlash cs ++ '/' :: x := by
  induction cs with
  | nil => exact absurd rfl h
  | cons c rest ih =>
    cases rest with
    | nil => rfl
    | cons d rest' =>
      have h₁ : (c :: d :: rest') ++ [x] = c :: ((d :: rest') ++ [x]) := rfl
      have h₂ : (d :: rest') ++ [x] = d :: (rest' ++ [x]) := rfl
      rw [h₁, h₂, joinSlash_cons_cons, ← h₂, ih (by simp), joinSlash_cons_cons]
      simp

theorem pathComponents_single {x : List Char} (hx : '/' ∉ x) (hne : x ≠ [])
    (hnd : x ≠ ['.']) : pathComponents x = [x] := by
  simp only [pathComponents, splitSlash_no_slash hx]
  rw [List.filter_cons]
  rw [show (decide (x ≠ [] ∧ x ≠ ['.'])) = true from decide_eq_true ⟨hne, hnd⟩]
  rfl

theorem head_ne_slash {x : String} (hx : '/' ∉ x.data) (hne : x.data ≠ []) :
    ¬(x.data.head? = some '/') := by
  cases hd : x.data with
  | nil => exact absurd hd hne
  | cons a l =>
    intro hcontra
    simp only [List.head?] at hcontra
    have : a = '/' := by injection hcontra
    exact hx (hd ▸ (this ▸ List.mem_cons_self a l))

/-- `str(PurePath(str(q), x))` joins a printed well-formed path with a single
extra component exactly as the spec's `<directory>/<name>` notation does. -/
theorem pathStr_purePath2 {q : PPath} (hq : PathWF q) {x : String}
    (hx : '/' ∉ x.data) (hne : x.data ≠ []) (hnd : x.data ≠ ['.']) :
    pathStr (purePath2 (pathStr q) x) = joinDir (pathStr q) x := by
  have hhead := head_ne_slash hx hne
  rw [purePath2, if_neg hhead, parsePath_pathStr hq, pathComponents_single hx hne hnd]
  rcases q with ⟨abs, comps⟩
  cases comps with
  | nil =>
    cases abs with
    | false =>
      have hdir : pathStr (⟨false, []⟩ : PPath) = "." := rfl
      rw [hdir]
      simp only [List.nil_append]
      rw [pathStr_cons_false x.data [], show joinSlash [x.data] = x.data from rfl, eta_mk]
      simp [joinDir]
    | true =>
      have hdir : pathStr (⟨true, []⟩ : PPath) = "/" := rfl
      rw [hdir]
      simp only [List.nil_append]
      rw [pathStr_cons_true x.data [], show joinSlash [x.data] = x.data from rfl]
      rw [show joinDir "/" x = "/" ++ x from by simp [joinDir]]
      apply data_inj
      rw [mk_data, data_append, show ("/" : String).data = ['/'] from rfl]
      rfl
  | cons c rest =>
    have hwf : ∀ y ∈ c :: rest, y ≠ [] ∧ y ≠ ['.'] ∧ '/' ∉ y := hq
    have hc_ne : c ≠ [] := (hwf c (List.mem_cons_self _ _)).1
    have hc_nd : c ≠ ['.'] := (hwf c (List.mem_cons_self _ _)).2.1
    have hc_ns : '/' ∉ c := (hwf c (List.mem_cons_self _ _)).2.2
    have hjoin_ne : joinSlash (c :: rest) ≠ [] :=
      joinSlash_ne_nil (by simp) (fun y hy => (hwf y hy).1)
    have happend : (c :: rest) ++ [x.data] = c :: (rest ++ [x.data]) := rfl
    have hjs : joinSlash ((c :: rest) ++ [x.data]) = joinSlash (c :: rest) ++ '/' :: x.data :=
      joinSlash_append_single (c :: rest) x.data (by simp)
    cases abs with
    | false =>
      have hdir : pathStr (⟨false, c :: rest⟩ : PPath) = ⟨joinSlash (c :: rest)⟩ :=
        pathStr_cons_false c rest
      have hdot : (⟨joinSlash (c :: rest)⟩ : String) ≠ "." := by
        intro hcontra
        have hdata : joinSlash (c :: rest) = ['.'] := congrArg String.data hcontra
        cases rest with
        | nil => exact hc_nd hdata
        | cons d rest' =>
          rw [joinSlash_cons_cons] at hdata
          have : '/' ∈ c ++ '/' :: joinSlash (d :: rest') :=
            List.mem_append_right c (List.mem_cons_self _ _)
          rw [hdata] at this
          simp at this
      have hslash : (⟨joinSlash (c :: rest)⟩ : String) ≠ "/" := by
        intro hcontra
        have hdata : joinSlash (c :: rest) = ['/'] := congrArg String.data hcontra
        cases rest with
        | nil =>
          have hmem : '/' ∈ c := by
            rw [show c = ['/'] from hdata]
            exact List.mem_cons_self _ _
          exact hc_ns hmem
        | cons d rest' =>
          rw [joinSlash_cons_cons] at hdata
          have hlen := congrArg List.length hdata
          simp [List.length_append] at hlen
          exact hc_ne (List.length_eq_zero.1 (by omega))
      rw [hdir]
      rw [joinDir, if_neg hdot, if_neg hslash]
      rw [show pathStr ⟨false, (c :: rest) ++ [x.data]⟩ = ⟨joinSlash ((c :: rest) ++ [x.data])⟩ from by
        rw [happend]; exact pathStr_cons_false _ _]
      apply data_inj
      rw [hjs]
      simp [mk_data, data_append, List.append_assoc]
    | true =>
      have hdir : pathStr (⟨true, c :: rest⟩ : PPath) = ⟨'/' :: joinSlash (c :: rest)⟩ :=
        pathStr_cons_true c rest
      have hdot : (⟨'/' :: joinSlash (c :: rest)⟩ : String) ≠ "." := by
        intro hcontra
        have hdata : '/' :: joinSlash (c :: rest) = ['.'] := congrArg String.data hcontra
        simp at hdata
      have hslash : (⟨'/' :: joinSlash (c :: rest)⟩ : String) ≠ "/" := by
        intro hcontra
        have hdata : '/' :: joinSlash (c :: rest) = ['/'] := congrArg String.data hcontra
        simp at hdata
        exact hjoin_ne hdata
      rw [hdir]
      rw [joinDir, if_neg hdot, if_neg hslash]
      rw [show pathStr ⟨true, (c :: rest) ++ [x.data]⟩ = ⟨'/' :: joinSlash ((c :: rest) ++ [x.data])⟩ from by
        rw [happend]; exact pathStr_cons_true _ _]
      apply data_inj
      rw [hjs]
      simp [mk_data, data_append, List.append_assoc]

/-- For a fixed directory, the spec's join is injective in the file name. -/
theorem joinDir_inj_right {d a b : String} (h : joinDir d a = joinDir d b) : a = b := by
  simp only [joinDir] at h
  split at h
  · exact h
  · split at h
    · apply data_inj
      have := congrArg String.data h
      simpa [data_append] using this
    · apply data_inj
      have := congrArg String.data h
      simp only [data_append, List.append_assoc] at this
      exact List.append_cancel_left (List.append_cancel_left this)

/-! Data model -/

/-- A video of a project; the dispatch core only reads
`video.backend.filename`, modelled as `filename`. -/
structure Video where
  filename : String
deriving DecidableEq

/-- A loaded project (`Labels`): the ordered sequence of its videos.  The
track/label data is opaque to the dispatch core. -/
structure Labels where
  videos : List Video
deriving DecidableEq

/-! The embedding of `sleap/io/convert.py` -/

/-- One anchored match attempt at the very end of `s`: strip the recognized
project-format suffix ending there, taking the alternative the regex engine
would (the leftmost match is the longest matching suffix). -/
def stripAtEnd (s : String) : String :=
  if strEndsWith s ".json.zip" then ⟨s.data.take (s.data.length - 9)⟩
  else if strEndsWith s ".json" then ⟨s.data.take (s.data.length - 5)⟩
  else if strEndsWith s ".h5" then ⟨s.data.take (s.data.length - 3)⟩
  else if strEndsWith s ".slp" then ⟨s.data.take (s.data.length - 4)⟩
  else s

/-- Models `re.sub("(\.json(\.zip)?|\.h5|\.slp)$", "", fn)` (line 140).
Python's `$` matches at the end of the string and also just before a newline
that ends the string, so on a newline-terminated input the suffix standing
before that final newline is stripped.  No recognized suffix ends in a
newline, so the two anchor positions never both match. -/
def strip_format_suffix (fn : String) : String :=
  if strEndsWith fn "\n" then ⟨(stripAtEnd ⟨fn.data.dropLast⟩).data ++ ['\n']⟩
  else stripAtEnd fn

/-- Models `default_analysis_filename` (lines 82–97).  The stem parameter
(named after the output path's stem in the source, `str(fn.stem)` at the call
site) is called `out_stem` here. -/
def default_analysis_filename (labels : Labels) (video : Video) (output_path : String)
    (out_stem : String) (format_suffix : String := "h5") : String :=
  let video_idx := labels.videos.indexOf video
  let vn := parsePath video.filename
  pathStr (purePath2 output_path
    (out_stem ++ "." ++ pad3 video_idx ++ "_" ++ pathStem vn ++ ".analysis." ++ format_suffix))

/-- Models the video-selection loop (lines 126–133): a non-empty `--video`
argument selects the first project video whose backing filename contains it
as a substring (and nothing when none matches); an empty argument selects
every video. -/
def selectVideos (videoArg : String) (videos : List Video) : List Video :=
  if 0 < videoArg.length then
    match videos.find? (fun v => strContains v.filename videoArg) with
    | some v => [v]
    | none => []
  else videos

/-- Models the output-name planning (lines 135–151): copy the explicit output
paths and, when there are fewer of them than selected videos, append a
default analysis filename for each remaining video. -/
def planOutnames (fmt input_path : String) (outputs : List String) (labels : Labels)
    (vids : List Video) : List String :=
  let outnames := outputs
  if outnames.length < vids.length then
    let out_suffix := if strContains fmt "nix" then "nix" else "h5"
    let fn := parsePath (strip_format_suffix input_path)
    outnames ++ (vids.drop outnames.length).map (fun video =>
      default_analysis_filename labels video (pathStr (pathParent fn)) (pathStem fn) out_suffix)
  else outnames

/-- The default analysis filename exactly as `main` derives it for one video:
directory and stem of the suffix-stripped input path, format-driven suffix. -/
def defaultNameFor (fmt input_path : String) (labels : Labels) (video : Video) : String :=
  default_analysis_filename labels video
    (pathStr (pathParent (parsePath (strip_format_suffix input_path))))
    (pathStem (parsePath (strip_format_suffix input_path)))
    (if strContains fmt "nix" then "nix" else "h5")

/-- The spec's default-naming formula, following its words (§4.2) as amended:
`"<directory>/<stem>.<video_index:3-digit zero-padded>_<video filename stem>.analysis.<suffix>"`,
where directory and stem come from the input path after the code's
suffix-stripping regex (which also strips a recognized suffix standing
immediately before a single terminal newline, per Python's `$`),
`video_index` is the video's position in the project's video sequence, and
suffix is `"nix"` exactly when the requested format contains `"nix"`, else
`"h5"`.  `joinDir` renders `<directory>/<name>` with the conventions fixed
by the spec's own scenarios (§8). -/
def spec_analysis_filename (labels : Labels) (video : Video) (input_path fmt : String) : String :=
  let base := parsePath (strip_format_suffix input_path)
  joinDir (pathStr (pathParent base))
    (pathStem base ++ "." ++ pad3 (labels.videos.indexOf video) ++ "_" ++
      pathStem (parsePath video.filename) ++ ".analysis." ++
      (if strContains fmt "nix" then "nix" else "h5"))

/-- The default-naming formula exactly as the claim states it: directory and
stem come from the input path after stripping a recognized suffix found at
the very end of the string (no newline case). -/
def spec_analysis_filename_literal (labels : Labels) (video : Video)
    (input_path fmt : String) : String :=
  let base := parsePath (stripAtEnd input_path)
  joinDir (pathStr (pathParent base))
    (pathStem base ++ "." ++ pad3 (labels.videos.indexOf video) ++ "_" ++
      pathStem (parsePath video.filename) ++ ".analysis." ++
      (if strContains fmt "nix" then "nix" else "h5"))

/-- The (video, output path) pairs the analysis branch iterates over (the
`zip(vids, outnames)` of lines 156 and 164). -/
def analysisTargets (fmt input_path : String) (outputs : List String) (labels : Labels)
    (videoArg : String) : List (Video × String) :=
  let vids := selectVideos videoArg labels.videos
  vids.zip (planOutnames fmt input_path outputs labels vids)

/-- Outcome of one external NIX writer call: success, a `ValueError` carrying
its message, or any other raised exception. -/
inductive WResult where
  | ok
  | valueError (msg : String)
  | raised (msg : String)
deriving DecidableEq

/-- Observable steps of one invocation: printed messages, writer invocations
with the arguments the source passes, and native saves. -/
inductive Event where
  | printed (msg : String)
  | nixAttempt (output_path : String) (labels : Labels) (source_path : String) (video : Video)
  | h5Attempt (labels : Labels) (output_path source_path : String) (all_frames : Bool) (video : Video)
  | savedNative (path : String)
deriving DecidableEq

/-- Models the NIX export loop (lines 153–160): each target invokes the
external writer; a `ValueError` is caught and its message printed, any other
exception aborts the remaining targets.  Returns the events in order and the
uncaught error, if any. -/
def runNix (nixW : String → Labels → String → Video → WResult) (labels : Labels)
    (input_path : String) : List (Video × String) → List Event × Option String
  | [] => ([], none)
  | (video, outname) :: rest =>
    match nixW outname labels input_path video with
    | .ok =>
      let r := runNix nixW labels input_path rest
      (.nixAttempt outname labels input_path video :: r.1, r.2)
    | .valueError m =>
      let r := runNix nixW labels input_path rest
      (.nixAttempt outname labels input_path video :: .printed m :: r.1, r.2)
    | .raised m => ([.nixAttempt outname labels input_path video], some m)

/-- Models the HDF5 export loop (lines 161–171): each target invokes the
external tracking-analysis writer with `all_frames=True`; the loop has no
exception handling, so a raised error aborts the remaining targets. -/
def runH5 (h5W : Labels → String → String → Bool → Video → Option String) (labels : Labels)
    (input_path : String) : List (Video × String) → List Event × Option String
  | [] => ([], none)
  | (video, output_path) :: rest =>
    match h5W labels output_path input_path true video with
    | none =>
      let r := runH5 h5W labels input_path rest
      (.h5Attempt labels output_path input_path true video :: r.1, r.2)
    | some m => ([.h5Attempt labels output_path input_path true video], some m)

/-- Models the analysis branch of `main` (lines 125–171): select videos, plan
output names, and run the NIX or HDF5 writer loop over the zipped targets. -/
def analysisDispatch (nixW : String → Labels → String → Video → WResult)
    (h5W : Labels → String → String → Bool → Video → Option String) (labels : Labels)
    (fmt input_path videoArg : String) (outputs : List String) : List Event × Option String :=
  let vids := selectVideos videoArg labels.videos
  let outnames := planOutnames fmt input_path outputs labels vids
  if strContains fmt "nix" then runNix nixW labels input_path (vids.zip outnames)
  else runH5 h5W labels input_path (vids.zip outnames)

/-- Models the dispatch of `main` after import (lines 125–184): the analysis
branch when the format contains "analysis"; else a native save to the first
explicit output path; else a native save to `<input_path>.<format>` for the
three native formats; else a help message.  (The final branch's `print(args)`
echo is elided.) -/
def convertDispatch (nixW : String → Labels → String → Video → WResult)
    (h5W : Labels → String → String → Bool → Video → Option String) (labels : Labels)
    (fmt input_path videoArg : String) (outputs : List String) : List Event × Option String :=
  if strContains fmt "analysis" then
    analysisDispatch nixW h5W labels fmt input_path videoArg outputs
  else
    match outputs with
    | o :: _ => ([.printed ("Output SLEAP dataset: " ++ o), .savedNative o], none)
    | [] =>
      if fmt = "slp" ∨ fmt = "h5" ∨ fmt = "json" then
        ([.printed ("Output SLEAP dataset: " ++ (input_path ++ "." ++ fmt)),
          .savedNative (input_path ++ "." ++ fmt)], none)
      else ([.printed "You didn't specify how to convert the file."], none)

/-- The error categories the native loader can fail with.  `typeError` is the
format-mismatch signal (`TypeError`) that `main` catches; the others stand
for I/O-level and any remaining failures, which `main` does not catch. -/
inductive LoadError where
  | typeError (msg : String)
  | ioError (msg : String)
  | otherError (msg : String)
deriving DecidableEq

/-- Models the import phase of `main` (lines 109–124): try the native loader;
exactly on the format-mismatch signal print a notice and fall back to the
generic multi-format reader, passing the `--video` hint through (`None` when
empty); any other loader failure propagates unmodified. -/
def importLabels (load : String → Except LoadError Labels)
    (readAll : String → Option String → Labels)
    (input_path videoArg : String) : Except LoadError (List Event × Labels) :=
  match load input_path with
  | .ok labels => .ok ([], labels)
  | .error (.typeError _) =>
    let video_path := if videoArg = "" then none else some videoArg
    .ok ([.printed "Input file isn't SLEAP dataset so attempting other importers..."],
      readAll input_path video_path)
  | .error e => .error e

/-! A heap model for the planner's list mutations -/

/-- A heap of Python list objects holding strings; a reference is an index
into the heap. -/
abbrev Store := List (List String)

/-- Reading the list object behind a reference. -/
def Store.read (st : Store) (r : Nat) : List String := (st[r]?).getD []

/-- Overwriting the list object behind a reference. -/
def Store.write (st : Store) (r : Nat) (xs : List String) : Store := st.set r xs

/-- Allocating a fresh list object; returns the new heap and the reference. -/
def Store.alloc (st : Store) (xs : List String) : Store × Nat := (st ++ [xs], st.length)

/-- Models Python's `list.append` on the object behind `r`. -/
def Store.push (st : Store) (r : Nat) (x : String) : Store :=
  st.write r (st.read r ++ [x])

/-- Models lines 135–151 at the level of Python list objects: the explicit
outputs live behind `rOutputs`; `outnames = [path for path in args.outputs]`
allocates a fresh copy, and the loop appends the default names to that copy
in place.  Returns the final heap and the reference the loop appended to. -/
def planOutnamesStore (fmt input_path : String) (labels : Labels) (vids : List Video)
    (st : Store) (rOutputs : Nat) : Store × Nat :=
  let alloc1 := Store.alloc st ((Store.read st rOutputs).map (fun path => path))
  let st1 := alloc1.1
  let rOutnames := alloc1.2
  let st2 :=
    if (Store.read st1 rOutnames).length < vids.length then
      let out_suffix := if strContains fmt "nix" then "nix" else "h5"
      let fn := parsePath (strip_format_suffix input_path)
      (vids.drop (Store.read st1 rOutnames).length).foldl
        (fun s video =>
          Store.push s rOutnames (default_analysis_filename labels video
            (pathStr (pathParent fn)) (pathStem fn) out_suffix)) st1
    else st1
  (st2, rOutnames)

/-! Planner lemmas -/

theorem zip_map_snd {α β : Type} (l₁ : List α) (l₂ : List β) :
    (l₁.zip l₂).map Prod.snd = l₂.take l₁.length := by
  induction l₁ generalizing l₂ with
  | nil => simp
  | cons a l ih =>
    cases l₂ with
    | nil => simp
    | cons b l' => simp [List.zip_cons_cons, ih]

/-- The planner in closed form: the explicit outputs followed by a default
name for each remaining selected video. -/
theorem planOutnames_eq (fmt input_path : String) (outputs : List String) (labels : Labels)
    (vids : List Video) :
    planOutnames fmt input_path outputs labels vids =
      outputs ++ (vids.drop outputs.length).map (defaultNameFor fmt input_path labels) := by
  simp only [planOutnames, defaultNameFor]
  split
  · rfl
  · next h =>
    rw [List.drop_eq_nil_of_le (Nat.le_of_not_lt h)]
    simp

theorem planOutnames_length (fmt input_path : String) (outputs : List String) (labels : Labels)
    (vids : List Video) :
    vids.length ≤ (planOutnames fmt input_path outputs labels vids).length := by
  rw [planOutnames_eq]
  simp only [List.length_append, List.length_map, List.length_drop]
  omega

theorem analysisTargets_fst (fmt input_path : String) (outputs : List String) (labels : Labels)
    (videoArg : String) :
    (analysisTargets fmt input_path outputs labels videoArg).map Prod.fst =
      selectVideos videoArg labels.videos := by
  exact List.map_fst_zip _ _ (planOutnames_length fmt input_path outputs labels _)

theorem analysisTargets_snd (fmt input_path : String) (outputs : List String) (labels : Labels)
    (videoArg : String) :
    (analysisTargets fmt input_path outputs labels videoArg).map Prod.snd =
      outputs.take (selectVideos videoArg labels.videos).length ++
        ((selectVideos videoArg labels.videos).drop outputs.length).map
          (defaultNameFor fmt input_path labels) := by
  rw [analysisTargets, zip_map_snd, planOutnames_eq, List.take_append_eq_append_take]
  congr 1
  have hlen : ((selectVideos videoArg labels.videos).drop outputs.length).length =
      (selectVideos videoArg labels.videos).length - outputs.length := List.length_drop _ _
  rcases Nat.lt_or_ge outputs.length (selectVideos videoArg labels.videos).length with h | h
  · rw [show (selectVideos videoArg labels.videos).length - outputs.length =
        (((selectVideos videoArg labels.videos).drop outputs.length).map
          (defaultNameFor fmt input_path labels)).length by simp [hlen]]
    exact List.take_length _
  · rw [List.drop_eq_nil_of_le h]
    simp

theorem analysisTargets_length (fmt input_path : String) (outputs : List String) (labels : Labels)
    (videoArg : String) :
    (analysisTargets fmt input_path outputs labels videoArg).length =
      (selectVideos videoArg labels.videos).length := by
  rw [analysisTargets, List.length_zip]
  exact Nat.min_eq_left (planOutnames_length fmt input_path outputs labels _)

/-- C1: for every analysis-export invocation, the selection of V videos
yields exactly V (video, output path) targets, each video paired in
selection order; the paths are the explicit ones first (at most V of them,
surplus unused), then a default-generated name for each remaining video. -/
theorem claim1_analysis_targets (labels : Labels) (fmt input_path videoArg : String)
    (outputs : List String) :
    (analysisTargets fmt input_path outputs labels videoArg).length =
      (selectVideos videoArg labels.videos).length ∧
    (analysisTargets fmt input_path outputs labels videoArg).map Prod.fst =
      selectVideos videoArg labels.videos ∧
    (analysisTargets fmt input_path outputs labels videoArg).map Prod.snd =
      outputs.take (selectVideos videoArg labels.videos).length ++
        ((selectVideos videoArg labels.videos).drop outputs.length).map
          (defaultNameFor fmt input_path labels) :=
  ⟨analysisTargets_length fmt input_path outputs labels videoArg,
    analysisTargets_fst fmt input_path outputs labels videoArg,
    analysisTargets_snd fmt input_path outputs labels videoArg⟩

/-! The default name against the spec's formula -/

theorem pyStem_subset (name : List Char) : ∀ c ∈ pyStem name, c ∈ name := by
  intro c hc
  rw [pyStem] at hc
  split at hc
  · split at hc
    · exact List.mem_of_mem_take hc
    · exact hc
  · exact hc

theorem slash_not_mem_pathStem {p : PPath} (h : PathWF p) :
    '/' ∉ (pathStem p).data := by
  intro hmem
  rw [pathStem, mk_data] at hmem
  have hname : '/' ∈ pathName p := pyStem_subset _ _ hmem
  rw [pathName] at hname
  cases hgl : p.comps.getLast? with
  | none => rw [hgl] at hname; simp at hname
  | some c =>
    rw [hgl] at hname
    exact (h c (List.mem_of_mem_getLast? (hgl ▸ rfl))).2.2 hname

theorem genName_facts {s v sfx : String} (hs : '/' ∉ s.data) (hv : '/' ∉ v.data)
    (hsfx : '/' ∉ sfx.data) (idx : Nat) :
    '/' ∉ (s ++ "." ++ pad3 idx ++ "_" ++ v ++ ".analysis." ++ sfx).data ∧
    (s ++ "." ++ pad3 idx ++ "_" ++ v ++ ".analysis." ++ sfx).data ≠ [] ∧
    (s ++ "." ++ pad3 idx ++ "_" ++ v ++ ".analysis." ++ sfx).data ≠ ['.'] := by
  have hdata : (s ++ "." ++ pad3 idx ++ "_" ++ v ++ ".analysis." ++ sfx).data =
      s.data ++ ("." : String).data ++ (pad3 idx).data ++ ("_" : String).data ++ v.data ++
        (".analysis." : String).data ++ sfx.data := by
    simp [data_append]
  refine ⟨?_, ?_, ?_⟩
  · intro hmem
    rw [hdata] at hmem
    simp only [List.mem_append] at hmem
    rcases hmem with ((((((h | h) | h) | h) | h) | h) | h)
    · exact hs h
    · revert h; decide
    · exact slash_not_mem_pad3 idx h
    · revert h; decide
    · exact hv h
    · revert h; decide
    · exact hsfx h
  · intro hnil
    have := congrArg List.length hnil
    rw [hdata] at this
    simp only [List.length_append, List.length_cons, List.length_nil] at this
    omega
  · intro hdot
    have := congrArg List.length hdot
    rw [hdata] at this
    simp only [List.length_append, List.length_cons, List.length_nil] at this
    omega

/-- The name `main` generates for a video equals the spec's §4.2 formula. -/
theorem defaultNameFor_eq_spec (labels : Labels) (video : Video) (fmt input_path : String) :
    defaultNameFor fmt input_path labels video =
      spec_analysis_filename labels video input_path fmt := by
  have hbase := wf_parsePath (strip_format_suffix input_path)
  have hq := wf_pathParent hbase
  have hs : '/' ∉ (pathStem (parsePath (strip_format_suffix input_path))).data :=
    slash_not_mem_pathStem hbase
  have hv : '/' ∉ (pathStem (parsePath video.filename)).data :=
    slash_not_mem_pathStem (wf_parsePath _)
  have hsfx : '/' ∉ ((if strContains fmt "nix" then "nix" else "h5") : String).data := by
    split <;> decide
  obtain ⟨h1, h2, h3⟩ := genName_facts hs hv hsfx (labels.videos.indexOf video)
  simp only [defaultNameFor, default_analysis_filename, spec_analysis_filename]
  exact pathStr_purePath2 hq h1 h2 h3

/-- C2 fails as stated: on the newline-terminated input path "a.slp\n" the
code's regex strips the ".slp" standing before the final newline (Python's
`$`) and generates "a\n.000_cam.analysis.h5", while the claim's formula from
the input path "after stripping a trailing recognized suffix" strips nothing
(the path ends in no recognized suffix) and yields "a.000_cam.analysis.h5". -/
theorem claim2_counterexample :
    defaultNameFor "analysis" "a.slp\n" (Labels.mk [Video.mk "cam.mp4"]) (Video.mk "cam.mp4") =
      "a\n.000_cam.analysis.h5" ∧
    spec_analysis_filename_literal (Labels.mk [Video.mk "cam.mp4"]) (Video.mk "cam.mp4")
        "a.slp\n" "analysis" = "a.000_cam.analysis.h5" ∧
    defaultNameFor "analysis" "a.slp\n" (Labels.mk [Video.mk "cam.mp4"]) (Video.mk "cam.mp4") ≠
      spec_analysis_filename_literal (Labels.mk [Video.mk "cam.mp4"]) (Video.mk "cam.mp4")
        "a.slp\n" "analysis" := by
  refine ⟨by decide, by decide, by decide⟩

/-- C2 amended: every auto-generated analysis output path equals the formula
"<directory>/<stem>.<video_index:3-digit zero-padded>_<video filename
stem>.analysis.<suffix>", where directory and stem come from the input path
after the code's suffix-stripping regex — which strips a trailing recognized
suffix also when it stands immediately before a single terminal newline —
with the video's project index and the format-driven suffix. -/
theorem claim2_amended_default_name (labels : Labels) (video : Video)
    (fmt input_path : String) :
    defaultNameFor fmt input_path labels video =
      spec_analysis_filename labels video input_path fmt :=
  defaultNameFor_eq_spec labels video fmt input_path

/-! Uniqueness of generated paths -/

theorem sep_cancel {s t r r' : List Char} (hs : '_' ∉ s) (ht : '_' ∉ t)
    (h : s ++ '_' :: r = t ++ '_' :: r') : s = t := by
  induction s generalizing t with
  | nil =>
    cases t with
    | nil => rfl
    | cons b t' =>
      simp only [List.nil_append, List.cons_append, List.cons.injEq] at h
      exact absurd (List.mem_cons.2 (Or.inl h.1)) ht
  | cons a s' ih =>
    cases t with
    | nil =>
      simp only [List.nil_append, List.cons_append, List.cons.injEq] at h
      exact absurd (List.mem_cons.2 (Or.inl h.1.symm)) hs
    | cons b t' =>
      simp only [List.cons_append, List.cons.injEq] at h
      have := ih (fun hm => hs (List.mem_cons_of_mem a hm))
        (fun hm => ht (List.mem_cons_of_mem b hm)) h.2
      rw [h.1, this]

/-- Distinct project videos get distinct default names: the zero-padded
project index right after the first dot separates them. -/
theorem defaultNameFor_inj (fmt input_path : String) (labels : Labels) {u w : Video}
    (hu : u ∈ labels.videos) (hw : w ∈ labels.videos)
    (h : defaultNameFor fmt input_path labels u = defaultNameFor fmt input_path labels w) :
    u = w := by
  rw [defaultNameFor_eq_spec, defaultNameFor_eq_spec] at h
  simp only [spec_analysis_filename] at h
  have hX := joinDir_inj_right h
  have hdata := congrArg String.data hX
  simp only [data_append, List.append_assoc] at hdata
  have h1 := List.append_cancel_left hdata
  have h2 := List.append_cancel_left h1
  simp only [show ("_" : String).data = ['_'] from rfl, List.singleton_append] at h2
  have hP := sep_cancel (underscore_not_mem_pad3 (labels.videos.indexOf u))
    (underscore_not_mem_pad3 (labels.videos.indexOf w)) h2
  exact (List.indexOf_inj hu hw).mp (pad3_inj (data_inj hP))

theorem selectVideos_subset (videoArg : String) (videos : List Video) :
    ∀ v ∈ selectVideos videoArg videos, v ∈ videos := by
  intro v hv
  rw [selectVideos] at hv
  split at hv
  · split at hv
    · next v' hfind =>
      rw [List.mem_singleton] at hv
      subst hv
      exact List.mem_of_find?_eq_some hfind
    · simp at hv
  · exact hv

theorem selectVideos_nodup (videoArg : String) (videos : List Video) (h : videos.Nodup) :
    (selectVideos videoArg videos).Nodup := by
  rw [selectVideos]
  split
  · split
    · exact List.nodup_singleton _
    · exact List.nodup_nil
  · exact h

/-- C7 does not hold as stated: an explicit output path may coincide with an
auto-generated one.  Here the project has two distinct videos, the single
explicit path is exactly the default name of the second video, and the two
planned targets share that path. -/
theorem claim7_counterexample :
    ([Video.mk "camA.mp4", Video.mk "camB.mp4"] : List Video).Nodup ∧
    (["proj.001_camB.analysis.h5"] : List String).Nodup ∧
    ¬ ((analysisTargets "analysis" "proj.slp" ["proj.001_camB.analysis.h5"]
        (Labels.mk [Video.mk "camA.mp4", Video.mk "camB.mp4"]) "").map Prod.snd).Nodup := by
  decide

/-- C7 amended: with pairwise-distinct videos, pairwise-distinct explicit
paths, and no explicit path equal to an auto-generated one, no two produced
targets share an output path (the auto-generated paths are pairwise distinct
because each embeds its video's distinct zero-padded index). -/
theorem claim7_amended_unique_paths (labels : Labels) (fmt input_path videoArg : String)
    (outputs : List String) (hvids : labels.videos.Nodup) (houts : outputs.Nodup)
    (hdisj : ∀ p ∈ outputs,
      p ∉ ((selectVideos videoArg labels.videos).drop outputs.length).map
            (defaultNameFor fmt input_path labels)) :
    ((analysisTargets fmt input_path outputs labels videoArg).map Prod.snd).Nodup := by
  rw [analysisTargets_snd]
  have hseln : (selectVideos videoArg labels.videos).Nodup :=
    selectVideos_nodup videoArg labels.videos hvids
  have hdropn : ((selectVideos videoArg labels.videos).drop outputs.length).Nodup :=
    (List.drop_sublist _ _).nodup hseln
  apply List.Nodup.append
  · exact (List.take_sublist _ _).nodup houts
  · refine (List.nodup_map_iff_inj_on hdropn).mpr ?_
    intro x hx y hy hxy
    have hxm : x ∈ labels.videos :=
      selectVideos_subset videoArg labels.videos x (List.mem_of_mem_drop hx)
    have hym : y ∈ labels.videos :=
      selectVideos_subset videoArg labels.videos y (List.mem_of_mem_drop hy)
    exact defaultNameFor_inj fmt input_path labels hxm hym hxy
  · intro a ha hb
    exact hdisj a (List.take_subset _ _ ha) hb

/-- Witness for the amended C7 at a concrete invocation. -/
theorem claim7_amended_witness :
    ((analysisTargets "analysis" "proj.slp" ["x"]
        (Labels.mk [Video.mk "camA.mp4", Video.mk "camB.mp4"]) "").map Prod.snd).Nodup :=
  claim7_amended_unique_paths (Labels.mk [Video.mk "camA.mp4", Video.mk "camB.mp4"])
    "analysis" "proj.slp" "" ["x"] (by decide) (by decide) (by decide)

/-! Error isolation in the export loops -/

/-- The writer invocations recorded in an event list, in order. -/
def nixAttemptsOf : List Event → List (Video × String)
  | [] => []
  | Event.nixAttempt o _ _ v :: rest => (v, o) :: nixAttemptsOf rest
  | _ :: rest => nixAttemptsOf rest

/-- Whether a writer outcome is an uncaught (non-`ValueError`) exception. -/
def WResult.isRaised : WResult → Bool
  | WResult.raised _ => true
  | _ => false

/-- When no target makes the NIX writer raise a non-`ValueError`, every
target is attempted and no error escapes the loop. -/
theorem runNix_no_raise (nixW : String → Labels → String → Video → WResult)
    (labels : Labels) (input_path : String) :
    ∀ ts : List (Video × String),
      (∀ t ∈ ts, (nixW t.2 labels input_path t.1).isRaised = false) →
      nixAttemptsOf (runNix nixW labels input_path ts).1 = ts ∧
      (runNix nixW labels input_path ts).2 = none := by
  intro ts
  induction ts with
  | nil => intro _; exact ⟨rfl, rfl⟩
  | cons t rest ih =>
    intro h
    rcases t with ⟨video, outname⟩
    have hrest := ih (fun t ht => h t (List.mem_cons_of_mem _ ht))
    cases hw : nixW outname labels input_path video with
    | ok =>
      simp only [runNix, hw]
      exact ⟨by simp [nixAttemptsOf, hrest.1], hrest.2⟩
    | valueError m =>
      simp only [runNix, hw]
      exact ⟨by simp [nixAttemptsOf, hrest.1], hrest.2⟩
    | raised m =>
      have := h (video, outname) (List.mem_cons_self _ _)
      rw [hw] at this
      exact absurd this (by simp [WResult.isRaised])

/-- C4: in the NIX export loop a `ValueError` on one target is caught, its
message printed, and the remaining targets processed exactly as they would
otherwise be; a non-`ValueError` exception on a target propagates at once,
ending the loop. -/
theorem claim4_nix_value_error_isolation
    (nixW : String → Labels → String → Video → WResult) (labels : Labels)
    (input_path : String) :
    (∀ (ts₁ ts₂ : List (Video × String)) (v : Video) (o m : String),
      (∀ t ∈ ts₁, (nixW t.2 labels input_path t.1).isRaised = false) →
      nixW o labels input_path v = WResult.valueError m →
      runNix nixW labels input_path (ts₁ ++ (v, o) :: ts₂) =
        ((runNix nixW labels input_path ts₁).1 ++
            Event.nixAttempt o labels input_path v :: Event.printed m ::
              (runNix nixW labels input_path ts₂).1,
          (runNix nixW labels input_path ts₂).2)) ∧
    (∀ (ts₂ : List (Video × String)) (v : Video) (o m : String),
      nixW o labels input_path v = WResult.raised m →
      runNix nixW labels input_path ((v, o) :: ts₂) =
        ([Event.nixAttempt o labels input_path v], some m)) := by
  constructor
  · intro ts₁
    induction ts₁ with
    | nil =>
      intro ts₂ v o m _ hv
      simp [runNix, hv]
    | cons t rest ih =>
      intro ts₂ v o m h hv
      rcases t with ⟨tv, tq⟩
      have hrec := ih ts₂ v o m (fun t ht => h t (List.mem_cons_of_mem _ ht)) hv
      cases hw : nixW tq labels input_path tv with
      | ok =>
        simp only [List.cons_append, runNix, hw, List.append_eq, hrec]
      | valueError s =>
        simp only [List.cons_append, runNix, hw, List.append_eq, hrec]
      | raised s =>
        have := h (tv, tq) (List.mem_cons_self _ _)
        rw [hw] at this
        exact absurd this (by simp [WResult.isRaised])
  · intro ts₂ v o m hv
    simp [runNix, hv]

/-- Witness for C4 at a concrete invocation: the writer reports a
`ValueError` on the middle target, its message is printed, the third target
is still attempted; a raising target ends the loop at once. -/
theorem claim4_witness :
    runNix (fun o _ _ _ => if o = "b" then WResult.valueError "bad codec" else WResult.ok)
        (Labels.mk []) "in.slp"
        [(Video.mk "u", "a"), (Video.mk "v", "b"), (Video.mk "w", "c")] =
      ([Event.nixAttempt "a" (Labels.mk []) "in.slp" (Video.mk "u"),
        Event.nixAttempt "b" (Labels.mk []) "in.slp" (Video.mk "v"),
        Event.printed "bad codec",
        Event.nixAttempt "c" (Labels.mk []) "in.slp" (Video.mk "w")], none) ∧
    runNix (fun _ _ _ _ => WResult.raised "boom") (Labels.mk []) "in.slp"
        [(Video.mk "u", "a"), (Video.mk "v", "b")] =
      ([Event.nixAttempt "a" (Labels.mk []) "in.slp" (Video.mk "u")], some "boom") := by
  constructor
  · have h := (claim4_nix_value_error_isolation
        (fun o _ _ _ => if o = "b" then WResult.valueError "bad codec" else WResult.ok)
        (Labels.mk []) "in.slp").1
        [(Video.mk "u", "a")] [(Video.mk "w", "c")] (Video.mk "v") "b" "bad codec"
        (by decide) (by decide)
    simp only [List.singleton_append] at h
    rw [h]
    simp [runNix]
  · exact (claim4_nix_value_error_isolation (fun _ _ _ _ => WResult.raised "boom")
        (Labels.mk []) "in.slp").2 [(Video.mk "v", "b")] (Video.mk "u") "a" "boom" (by decide)

/-- C3 fails as stated: for the HDF5 analysis kind a failure on the first
target prevents the second target from being attempted.  Both targets are
planned (two videos selected), yet after the writer raises on the first one
the invocation ends with only that single attempt. -/
theorem claim3_counterexample :
    (analysisTargets "analysis" "proj.slp" []
        (Labels.mk [Video.mk "camA.mp4", Video.mk "camB.mp4"]) "").length = 2 ∧
    convertDispatch (fun _ _ _ _ => WResult.ok) (fun _ _ _ _ _ => some "disk full")
        (Labels.mk [Video.mk "camA.mp4", Video.mk "camB.mp4"]) "analysis" "proj.slp" "" [] =
      ([Event.h5Attempt (Labels.mk [Video.mk "camA.mp4", Video.mk "camB.mp4"])
          "proj.000_camA.analysis.h5" "proj.slp" true (Video.mk "camA.mp4")],
        some "disk full") := by
  constructor
  · decide
  · decide

/-- C3 amended: only the NIX analysis export isolates per-target failures,
and only for the writer's value-level error category: when no target makes
the NIX writer raise a non-`ValueError`, every planned target of the
invocation is attempted and the invocation ends without an escaping error.
(HDF5 writer failures and non-value NIX errors abort the remaining
targets.) -/
theorem claim3_amended_nix_isolation
    (nixW : String → Labels → String → Video → WResult)
    (h5W : Labels → String → String → Bool → Video → Option String) (labels : Labels)
    (fmt input_path videoArg : String) (outputs : List String)
    (hana : strContains fmt "analysis" = true) (hnix : strContains fmt "nix" = true)
    (hnr : ∀ t ∈ analysisTargets fmt input_path outputs labels videoArg,
      (nixW t.2 labels input_path t.1).isRaised = false) :
    nixAttemptsOf (convertDispatch nixW h5W labels fmt input_path videoArg outputs).1 =
      analysisTargets fmt input_path outputs labels videoArg ∧
    (convertDispatch nixW h5W labels fmt input_path videoArg outputs).2 = none := by
  have hdisp : convertDispatch nixW h5W labels fmt input_path videoArg outputs =
      runNix nixW labels input_path
        (analysisTargets fmt input_path outputs labels videoArg) := by
    rw [convertDispatch.eq_def, if_pos hana, analysisDispatch, if_pos hnix]
    rfl
  rw [hdisp]
  exact runNix_no_raise nixW labels input_path _ hnr

/-- Witness for the amended C3: a `ValueError` on the first of two NIX
targets still lets the second be attempted, with no escaping error. -/
theorem claim3_amended_witness :
    nixAttemptsOf (convertDispatch
        (fun o _ _ _ => if o = "out0.nix" then WResult.valueError "bad codec" else WResult.ok)
        (fun _ _ _ _ _ => none) (Labels.mk [Video.mk "camA.mp4", Video.mk "camB.mp4"])
        "analysis.nix" "proj.slp" "" ["out0.nix", "out1.nix"]).1 =
      analysisTargets "analysis.nix" "proj.slp" ["out0.nix", "out1.nix"]
        (Labels.mk [Video.mk "camA.mp4", Video.mk "camB.mp4"]) "" ∧
    (convertDispatch
        (fun o _ _ _ => if o = "out0.nix" then WResult.valueError "bad codec" else WResult.ok)
        (fun _ _ _ _ _ => none) (Labels.mk [Video.mk "camA.mp4", Video.mk "camB.mp4"])
        "analysis.nix" "proj.slp" "" ["out0.nix", "out1.nix"]).2 = none :=
  claim3_amended_nix_isolation
    (fun o _ _ _ => if o = "out0.nix" then WResult.valueError "bad codec" else WResult.ok)
    (fun _ _ _ _ _ => none) (Labels.mk [Video.mk "camA.mp4", Video.mk "camB.mp4"])
    "analysis.nix" "proj.slp" "" ["out0.nix", "out1.nix"] (by decide) (by decide) (by decide)

/-! Import fallback -/

/-- C5: the importer first attempts the native loader; exactly when that
fails with the format-mismatch signal it prints a diagnostic notice and falls
back to the generic reader with the video hint passed through; any other
loader failure propagates unmodified. -/
theorem claim5_import_fallback (load : String → Except LoadError Labels)
    (readAll : String → Option String → Labels) (input_path videoArg : String) :
    (∀ labels, load input_path = Except.ok labels →
      importLabels load readAll input_path videoArg = Except.ok ([], labels)) ∧
    (∀ m, load input_path = Except.error (LoadError.typeError m) →
      importLabels load readAll input_path videoArg =
        Except.ok
          ([Event.printed "Input file isn't SLEAP dataset so attempting other importers..."],
            readAll input_path (if videoArg = "" then none else some videoArg))) ∧
    (∀ e, load input_path = Except.error e → (∀ m, e ≠ LoadError.typeError m) →
      importLabels load readAll input_path videoArg = Except.error e) := by
  refine ⟨?_, ?_, ?_⟩
  · intro labels h
    simp [importLabels, h]
  · intro m h
    simp [importLabels, h]
  · intro e h hne
    cases e with
    | typeError m => exact absurd rfl (hne m)
    | ioError m => simp [importLabels, h]
    | otherError m => simp [importLabels, h]

/-- Witness for C5: each of the three import outcomes at concrete inputs. -/
theorem claim5_witness :
    importLabels (fun _ => Except.ok (Labels.mk [])) (fun _ _ => Labels.mk []) "a" "" =
      Except.ok ([], Labels.mk []) ∧
    importLabels (fun _ => Except.error (LoadError.typeError "not slp"))
        (fun _ _ => Labels.mk []) "a" "vid" =
      Except.ok
        ([Event.printed "Input file isn't SLEAP dataset so attempting other importers..."],
          Labels.mk []) ∧
    importLabels (fun _ => Except.error (LoadError.ioError "missing"))
        (fun _ _ => Labels.mk []) "a" "" =
      Except.error (LoadError.ioError "missing") := by
  refine ⟨?_, ?_, ?_⟩
  · exact (claim5_import_fallback (fun _ => Except.ok (Labels.mk []))
      (fun _ _ => Labels.mk []) "a" "").1 (Labels.mk []) rfl
  · exact (claim5_import_fallback (fun _ => Except.error (LoadError.typeError "not slp"))
      (fun _ _ => Labels.mk []) "a" "vid").2.1 "not slp" rfl
  · exact (claim5_import_fallback (fun _ => Except.error (LoadError.ioError "missing"))
      (fun _ _ => Labels.mk []) "a" "").2.2 (LoadError.ioError "missing") rfl
      (fun m h => LoadError.noConfusion h)

/-! Native save -/

/-- C6: for the native (non-analysis) kinds exactly one output is written —
to the first explicit output path when one was supplied, else to
`<input_path>.<format>`. -/
theorem claim6_native_save_single_output
    (nixW : String → Labels → String → Video → WResult)
    (h5W : Labels → String → String → Bool → Video → Option String) (labels : Labels)
    (input_path videoArg : String) (outputs : List String) (fmt : String)
    (hfmt : fmt = "slp" ∨ fmt = "h5" ∨ fmt = "json") :
    convertDispatch nixW h5W labels fmt input_path videoArg outputs =
      (match outputs with
       | o :: _ => ([Event.printed ("Output SLEAP dataset: " ++ o), Event.savedNative o], none)
       | [] => ([Event.printed ("Output SLEAP dataset: " ++ (input_path ++ "." ++ fmt)),
                 Event.savedNative (input_path ++ "." ++ fmt)], none)) := by
  have hana : strContains fmt "analysis" = false := by
    rcases hfmt with h | h | h <;> subst h <;> decide
  rw [convertDispatch.eq_def, if_neg (by simp [hana])]
  cases outputs with
  | cons o rest => rfl
  | nil => rw [if_pos hfmt]

/-- Witness for C6: the spec's scenario — input `proj.slp`, format `slp`, no
explicit output — saves to `proj.slp.slp`. -/
theorem claim6_witness :
    convertDispatch (fun _ _ _ _ => WResult.ok) (fun _ _ _ _ _ => none) (Labels.mk [])
        "slp" "proj.slp" "" [] =
      ([Event.printed "Output SLEAP dataset: proj.slp.slp", Event.savedNative "proj.slp.slp"],
        none) := by
  have h := claim6_native_save_single_output (fun _ _ _ _ => WResult.ok) (fun _ _ _ _ _ => none)
    (Labels.mk []) "proj.slp" "" [] "slp" (Or.inl rfl)
  rw [h]
  decide

/-! Suffix stripping -/

theorem strEndsWith_append_self (p s : String) : strEndsWith (p ++ s) s = true := by
  apply decide_eq_true
  rw [data_append]
  exact List.suffix_append _ _

theorem strEndsWith_append_false {a b : String} (h₁ : ¬a.data <:+ b.data)
    (h₂ : ¬b.data <:+ a.data) (p : String) : strEndsWith (p ++ a) b = false := by
  apply decide_eq_false
  intro hcon
  rw [data_append] at hcon
  have ha : a.data <:+ p.data ++ a.data := List.suffix_append _ _
  rcases Nat.le_total a.data.length b.data.length with hl | hl
  · exact h₁ (List.suffix_of_suffix_length_le ha hcon hl)
  · exact h₂ (List.suffix_of_suffix_length_le hcon ha hl)

theorem strip_not_ends {a b : String} (h₁ : ¬a.data <:+ b.data) (h₂ : ¬b.data <:+ a.data)
    (p : String) : ¬(strEndsWith (p ++ a) b = true) := by
  rw [strEndsWith_append_false h₁ h₂ p]
  simp

theorem strip_mk_take {s : String} (p : String) (k : Nat) (hk : s.data.length = k) :
    (⟨(p ++ s).data.take ((p ++ s).data.length - k)⟩ : String) = p := by
  apply data_inj
  rw [mk_data, data_append, List.length_append, hk, Nat.add_sub_cancel]
  exact List.take_left _ _

/-- A recognized suffix appended to `p` sits at the very end, so the regex
makes no use of the newline anchor there. -/
theorem strip_newline_free {a : String} (h₁ : ¬a.data <:+ ("\n" : String).data)
    (h₂ : ¬("\n" : String).data <:+ a.data) (p : String) :
    strip_format_suffix (p ++ a) = stripAtEnd (p ++ a) := by
  rw [strip_format_suffix, if_neg (strip_not_ends h₁ h₂ p)]

theorem strip_append_json_zip (p : String) : strip_format_suffix (p ++ ".json.zip") = p := by
  rw [strip_newline_free (by decide) (by decide) p, stripAtEnd,
    if_pos (strEndsWith_append_self p ".json.zip")]
  exact strip_mk_take p 9 rfl

theorem strip_append_json (p : String) : strip_format_suffix (p ++ ".json") = p := by
  rw [strip_newline_free (by decide) (by decide) p, stripAtEnd,
    if_neg (strip_not_ends (by decide) (by decide) p),
    if_pos (strEndsWith_append_self p ".json")]
  exact strip_mk_take p 5 rfl

theorem strip_append_h5 (p : String) : strip_format_suffix (p ++ ".h5") = p := by
  rw [strip_newline_free (by decide) (by decide) p, stripAtEnd,
    if_neg (strip_not_ends (by decide) (by decide) p),
    if_neg (strip_not_ends (by decide) (by decide) p),
    if_pos (strEndsWith_append_self p ".h5")]
  exact strip_mk_take p 3 rfl

theorem strip_append_slp (p : String) : strip_format_suffix (p ++ ".slp") = p := by
  rw [strip_newline_free (by decide) (by decide) p, stripAtEnd,
    if_neg (strip_not_ends (by decide) (by decide) p),
    if_neg (strip_not_ends (by decide) (by decide) p),
    if_neg (strip_not_ends (by decide) (by decide) p),
    if_pos (strEndsWith_append_self p ".slp")]
  exact strip_mk_take p 4 rfl

theorem stripAtEnd_no_suffix {p : String} (h1 : strEndsWith p ".json.zip" = false)
    (h2 : strEndsWith p ".json" = false) (h3 : strEndsWith p ".h5" = false)
    (h4 : strEndsWith p ".slp" = false) : stripAtEnd p = p := by
  rw [stripAtEnd, if_neg (by simp [h1]), if_neg (by simp [h2]),
    if_neg (by simp [h3]), if_neg (by simp [h4])]

/-- The regex makes no match on `p` exactly when `p` neither ends in a
recognized suffix nor in a recognized suffix followed by a terminal newline;
then the stripper leaves `p` unchanged. -/
theorem strip_of_no_match {p : String}
    (h1 : strEndsWith p ".json.zip" = false) (h2 : strEndsWith p ".json" = false)
    (h3 : strEndsWith p ".h5" = false) (h4 : strEndsWith p ".slp" = false)
    (h5 : strEndsWith p "\n" = true →
      strEndsWith ⟨p.data.dropLast⟩ ".json.zip" = false ∧
      strEndsWith ⟨p.data.dropLast⟩ ".json" = false ∧
      strEndsWith ⟨p.data.dropLast⟩ ".h5" = false ∧
      strEndsWith ⟨p.data.dropLast⟩ ".slp" = false) :
    strip_format_suffix p = p := by
  rw [strip_format_suffix]
  split
  · next hnl =>
    obtain ⟨g1, g2, g3, g4⟩ := h5 hnl
    rw [stripAtEnd_no_suffix g1 g2 g3 g4, mk_data]
    obtain ⟨t, ht⟩ := of_decide_eq_true hnl
    apply data_inj
    rw [mk_data, ← ht]
    rw [show (("\n" : String).data) = ['\n'] from rfl, List.dropLast_concat]
  · next hnl =>
    exact stripAtEnd_no_suffix h1 h2 h3 h4

/-- C8 fails as stated: "a.slp\n" ends in no recognized suffix, yet the
regex's `$` strips the ".slp" standing before the trailing newline, so the
base stem on it is "a\n", while on "a.slp\n" ++ ".slp" the appended suffix
is stripped from the very end and the base stem is "a". -/
theorem claim8_counterexample :
    (strEndsWith "a.slp\n" ".json.zip" = false ∧ strEndsWith "a.slp\n" ".json" = false ∧
      strEndsWith "a.slp\n" ".h5" = false ∧ strEndsWith "a.slp\n" ".slp" = false) ∧
    (".slp" : String) ∈ [".json", ".json.zip", ".h5", ".slp"] ∧
    pathStem (parsePath (strip_format_suffix "a.slp\n")) = "a\n" ∧
    pathStem (parsePath (strip_format_suffix ("a.slp\n" ++ ".slp"))) = "a" ∧
    pathStem (parsePath (strip_format_suffix "a.slp\n")) ≠
      pathStem (parsePath (strip_format_suffix ("a.slp\n" ++ ".slp"))) := by
  refine ⟨by decide, by decide, by decide, by decide, by decide⟩

/-- C8 amended: for every input path on which the stripping regex makes no
match — the path neither ends in a recognized project-format suffix nor in a
recognized suffix immediately followed by a terminal newline — the base stem
the default-naming algorithm uses is the same whether or not a recognized
suffix is appended first. -/
theorem claim8_amended_strip_idempotent_stem (p sfx : String)
    (hsfx : sfx ∈ [".json", ".json.zip", ".h5", ".slp"])
    (h1 : strEndsWith p ".json.zip" = false) (h2 : strEndsWith p ".json" = false)
    (h3 : strEndsWith p ".h5" = false) (h4 : strEndsWith p ".slp" = false)
    (h5 : strEndsWith p "\n" = true →
      strEndsWith ⟨p.data.dropLast⟩ ".json.zip" = false ∧
      strEndsWith ⟨p.data.dropLast⟩ ".json" = false ∧
      strEndsWith ⟨p.data.dropLast⟩ ".h5" = false ∧
      strEndsWith ⟨p.data.dropLast⟩ ".slp" = false) :
    pathStem (parsePath (strip_format_suffix p)) =
      pathStem (parsePath (strip_format_suffix (p ++ sfx))) := by
  rw [strip_of_no_match h1 h2 h3 h4 h5]
  have hcases : sfx = ".json" ∨ sfx = ".json.zip" ∨ sfx = ".h5" ∨ sfx = ".slp" := by
    simpa using hsfx
  rcases hcases with rfl | rfl | rfl | rfl
  · rw [strip_append_json]
  · rw [strip_append_json_zip]
  · rw [strip_append_h5]
  · rw [strip_append_slp]

/-- Witness for the amended C8 at a concrete match-free input path. -/
theorem claim8_amended_witness :
    pathStem (parsePath (strip_format_suffix "data")) =
      pathStem (parsePath (strip_format_suffix ("data" ++ ".h5"))) :=
  claim8_amended_strip_idempotent_stem "data" ".h5" (by decide) (by decide) (by decide)
    (by decide) (by decide) (by decide)

/-! Empty selection -/

/-- C9: when a non-empty video filter matches no project video, zero videos
are selected, no targets are planned, no writer is invoked, and the
invocation completes without an error. -/
theorem claim9_no_match_no_targets
    (nixW : String → Labels → String → Video → WResult)
    (h5W : Labels → String → String → Bool → Video → Option String) (labels : Labels)
    (fmt input_path videoArg : String) (outputs : List String)
    (hne : videoArg ≠ "")
    (hnomatch : ∀ v ∈ labels.videos, strContains v.filename videoArg = false)
    (hana : strContains fmt "analysis" = true) :
    selectVideos videoArg labels.videos = [] ∧
    analysisTargets fmt input_path outputs labels videoArg = [] ∧
    convertDispatch nixW h5W labels fmt input_path videoArg outputs = ([], none) := by
  have hdata : videoArg.data ≠ [] := fun hd => hne (data_inj (by rw [hd]))
  have hlen : 0 < videoArg.length := by
    have h0 : videoArg.data.length ≠ 0 := fun h0 => hdata (List.length_eq_zero.1 h0)
    have hle : videoArg.length = videoArg.data.length := rfl
    omega
  have hfind : labels.videos.find? (fun v => strContains v.filename videoArg) = none :=
    List.find?_eq_none.mpr (fun v hv => by rw [hnomatch v hv]; simp)
  have hsel : selectVideos videoArg labels.videos = [] := by
    rw [selectVideos, if_pos hlen, hfind]
  refine ⟨hsel, ?_, ?_⟩
  · rw [analysisTargets, hsel]
    rfl
  · rw [convertDispatch.eq_def, if_pos hana]
    simp only [analysisDispatch, hsel]
    split <;> rfl

/-- Witness for C9 at a concrete non-matching filter. -/
theorem claim9_witness :
    selectVideos "zzz" (Labels.mk [Video.mk "camA.mp4"]).videos = [] ∧
    analysisTargets "analysis" "proj.slp" [] (Labels.mk [Video.mk "camA.mp4"]) "zzz" = [] ∧
    convertDispatch (fun _ _ _ _ => WResult.ok) (fun _ _ _ _ _ => none)
      (Labels.mk [Video.mk "camA.mp4"]) "analysis" "proj.slp" "zzz" [] = ([], none) :=
  claim9_no_match_no_targets (fun _ _ _ _ => WResult.ok) (fun _ _ _ _ _ => none)
    (Labels.mk [Video.mk "camA.mp4"]) "analysis" "proj.slp" "zzz" [] (by decide) (by decide)
    (by decide)

/-! The planner never mutates the explicit output list -/

theorem store_read_append_lt {st : Store} {r : Nat} (hr : r < st.length) (xs : List String) :
    Store.read (st ++ [xs]) r = Store.read st r := by
  simp [Store.read, List.getElem?_append_left hr]

theorem store_read_append_new (st : Store) (xs : List String) :
    Store.read (st ++ [xs]) st.length = xs := by
  simp [Store.read, List.getElem?_append_right (le_refl st.length), Nat.sub_self]

theorem store_push_length (st : Store) (r : Nat) (x : String) :
    (Store.push st r x).length = st.length := by
  simp [Store.push, Store.write]

theorem store_read_push_ne {q r : Nat} (hne : r ≠ q) (st : Store) (x : String) :
    Store.read (Store.push st r x) q = Store.read st q := by
  simp [Store.push, Store.write, Store.read, List.getElem?_set_ne hne]

theorem store_read_push_eq {r : Nat} {st : Store} (hr : r < st.length) (x : String) :
    Store.read (Store.push st r x) r = Store.read st r ++ [x] := by
  simp [Store.push, Store.write, Store.read, List.getElem?_set_eq_of_lt _ hr]

theorem foldl_push_read_ne {f : Video → String} {q r : Nat} (hne : r ≠ q) :
    ∀ (l : List Video) (st : Store),
      Store.read (l.foldl (fun s v => Store.push s r (f v)) st) q = Store.read st q := by
  intro l
  induction l with
  | nil => intro st; rfl
  | cons v rest ih =>
    intro st
    rw [List.foldl_cons, ih, store_read_push_ne hne]

theorem foldl_push_read_eq {f : Video → String} {r : Nat} :
    ∀ (l : List Video) (st : Store), r < st.length →
      Store.read (l.foldl (fun s v => Store.push s r (f v)) st) r =
        Store.read st r ++ l.map f := by
  intro l
  induction l with
  | nil => intro st _; simp
  | cons v rest ih =>
    intro st hr
    rw [List.foldl_cons, ih _ (by rw [store_push_length]; exact hr), store_read_push_eq hr]
    simp

/-- C10: planning allocates a fresh copy of the parsed explicit output list
and appends default names only to the copy: afterwards the explicit list is
exactly as supplied, the appended-to reference is a different object, and the
copy holds exactly what the pure planner computes. -/
theorem claim10_outputs_not_mutated (fmt input_path : String) (labels : Labels)
    (vids : List Video) (st : Store) (rOutputs : Nat) (hr : rOutputs < st.length) :
    Store.read (planOutnamesStore fmt input_path labels vids st rOutputs).1 rOutputs =
      Store.read st rOutputs ∧
    (planOutnamesStore fmt input_path labels vids st rOutputs).2 ≠ rOutputs ∧
    Store.read (planOutnamesStore fmt input_path labels vids st rOutputs).1
        (planOutnamesStore fmt input_path labels vids st rOutputs).2 =
      planOutnames fmt input_path (Store.read st rOutputs) labels vids := by
  have hrne : rOutputs ≠ st.length := Nat.ne_of_lt hr
  have hcopy : Store.read (st ++ [(Store.read st rOutputs).map (fun path => path)]) st.length =
      Store.read st rOutputs := by
    rw [store_read_append_new, List.map_id']
  simp only [planOutnamesStore, Store.alloc, hcopy]
  refine ⟨?_, ?_, ?_⟩
  · split
    · rw [foldl_push_read_ne (Ne.symm hrne)]
      exact store_read_append_lt hr _
    · exact store_read_append_lt hr _
  · exact Ne.symm hrne
  · rw [planOutnames]
    split
    · next hcond =>
      have hlt : st.length < (st ++ [(Store.read st rOutputs).map (fun path => path)]).length := by
        simp
      rw [foldl_push_read_eq _ _ hlt, hcopy]
    · next hcond =>
      exact hcopy

/-- Witness for C10 at a concrete heap. -/
theorem claim10_witness :
    Store.read (planOutnamesStore "analysis" "proj.slp" (Labels.mk [Video.mk "camA.mp4"])
        [Video.mk "camA.mp4"] [["keep.h5"]] 0).1 0 = ["keep.h5"] ∧
    Store.read (planOutnamesStore "analysis" "proj.slp" (Labels.mk [Video.mk "camA.mp4"])
        [Video.mk "camA.mp4"] [["keep.h5"]] 0).1
      (planOutnamesStore "analysis" "proj.slp" (Labels.mk [Video.mk "camA.mp4"])
        [Video.mk "camA.mp4"] [["keep.h5"]] 0).2 =
      planOutnames "analysis" "proj.slp" ["keep.h5"] (Labels.mk [Video.mk "camA.mp4"])
        [Video.mk "camA.mp4"] := by
  have h := claim10_outputs_not_mutated "analysis" "proj.slp" (Labels.mk [Video.mk "camA.mp4"])
    [Video.mk "camA.mp4"] [["keep.h5"]] 0 (by decide)
  exact ⟨h.1, h.2.2⟩

end SleapConvert
